import Mathlib

/-!
Verification of the portfolio-tracker price-resolution subsystem and
portfolio metrics aggregator.

The definitions below are a shallow embedding of `app/price_service.py` and
`app/portfolio_service.py`.  Python `Decimal` values are modelled as `ℚ`
(exact rational arithmetic), timestamps (`datetime`) as natural-number
seconds, Python dictionaries as insertion-ordered association lists with
overwrite-in-place semantics, and the SQL-backed quote history as an
append-only list of quotes.  Effects that the source performs (invoking the
external quote provider, acquiring the rate limiter, querying the fallback
store) are recorded as boolean flags on the result so that claims about
"no provider call happens" are directly statable.
-/

namespace PortfolioTracker

/-- The raw provider response (`ticker.info` in `price_service.py`): the four
optional price fields the source probes, in the order it probes them
(line 49: `["currentPrice", "regularMarketPrice", "price", "lastPrice"]`).
A field that is missing from the dictionary or maps to Python `None` is
modelled as `none`. -/
structure RawInfo where
  currentPrice : Option ℚ
  regularMarketPrice : Option ℚ
  price : Option ℚ
  lastPrice : Option ℚ
deriving DecidableEq

/-- Outcome of one attempt against the external quote source inside the
`try` block of `PriceService.get_current_price`: either the provider calls
return (`ok`, with the raw info dictionary and the last `Close` value of the
one-day history, `none` when the history frame is empty), or some call in
the block raises (`exn`). -/
inductive FetchOutcome where
  | ok (info : RawInfo) (histClose : Option ℚ)
  | exn
deriving DecidableEq

/-- A persisted price observation (`PriceHistory` row in `models.py`). -/
structure Quote where
  symbol : String
  price : ℚ
  timestamp : ℕ
  source : String
deriving DecidableEq

/-- The mutable state of `PriceService`: the in-memory price cache
(`_price_cache : Dict[str, tuple[Decimal, datetime]]`) and the persisted
append-only `price_history` table. -/
structure PriceState where
  cache : List (String × ℚ × ℕ)
  history : List Quote
deriving DecidableEq

/-- `PriceService._cache_duration` (line 29): 300 seconds. -/
def cacheDuration : ℕ := 300

/-- The throttler from `price_service.py` lines 12–21.  Its
`__aenter__`/`__aexit__` bodies are `return self` and `pass`: they consult
no counter, record no call, and never suspend. -/
structure SimpleThrottler where
  rate_limit : ℕ
  period : ℕ
deriving DecidableEq

/-- `SimpleThrottler.__aenter__`: returns immediately, imposing no delay and
changing no state (the returned time equals the entry time). -/
def SimpleThrottler.aenter (t : SimpleThrottler) (time : ℕ) : SimpleThrottler × ℕ :=
  (t, time)

/-- `SimpleThrottler.__aexit__`: a `pass` body. -/
def SimpleThrottler.aexit (t : SimpleThrottler) (time : ℕ) : SimpleThrottler × ℕ :=
  (t, time)

/-- The throttler constructed in `PriceService.__init__` (line 27):
`SimpleThrottler(rate_limit=10, period=60)`. -/
def serviceThrottler : SimpleThrottler := ⟨10, 60⟩

/-- Python `symbol in self._price_cache` / `self._price_cache[symbol]`:
look up the (price, retrieved-at) entry for a symbol. -/
def lookupCache (cache : List (String × ℚ × ℕ)) (s : String) : Option (ℚ × ℕ) :=
  (cache.find? (fun e => e.1 == s)).map (fun e => e.2)

/-- Python `self._price_cache[symbol] = (price, datetime.now())`: overwrite
the entry in place when the key is present, otherwise append it. -/
def storeCache (cache : List (String × ℚ × ℕ)) (s : String) (p : ℚ) (t : ℕ) :
    List (String × ℚ × ℕ) :=
  if cache.any (fun e => e.1 == s) then
    cache.map (fun e => if e.1 == s then (s, p, t) else e)
  else cache ++ [(s, p, t)]

/-- The field-probing loop of `get_current_price` (lines 48–52): try
`currentPrice`, `regularMarketPrice`, `price`, `lastPrice` in that order and
take the first present, non-`None` value. -/
def tryPriceFields (info : RawInfo) : Option ℚ :=
  match info.currentPrice with
  | some p => some p
  | none =>
    match info.regularMarketPrice with
    | some p => some p
    | none =>
      match info.price with
      | some p => some p
      | none => info.lastPrice

/-- The price obtained from a live-fetch outcome (lines 48–58): first the
probed info fields, then — only when all four are absent — the last `Close`
of the provider's one-day history; `none` when the attempt raised or
nothing was usable. -/
def liveFetchPrice : FetchOutcome → Option ℚ
  | .exn => none
  | .ok info histClose =>
    match tryPriceFields info with
    | some p => some p
    | none => histClose

/-- The quote selected by `PriceService._get_last_known_price`'s query
(lines 107–114): `SELECT * FROM price_history WHERE symbol = s ORDER BY
timestamp DESC LIMIT 1`.  Among quotes for `s` this picks one of maximal
timestamp; on equal timestamps the later-appended row wins, which agrees
with the program because rows are appended with the append-time timestamp
(nondecreasing along the list). -/
def lastQuoteFor (history : List Quote) (s : String) : Option Quote :=
  history.foldl
    (fun acc q =>
      if q.symbol == s then
        match acc with
        | none => some q
        | some b => if b.timestamp ≤ q.timestamp then some q else some b
      else acc)
    none

/-- `PriceService._get_last_known_price` (lines 101–120): the price of the
most recent persisted quote for the symbol, or `none` when no row exists. -/
def getLastKnownPrice (history : List Quote) (s : String) : Option ℚ :=
  (lastQuoteFor history s).map (fun q => q.price)

/-- Result of one `get_current_price` call: the returned price, the service
state afterwards, and whether the call entered the throttler context,
invoked the quote source, and queried the fallback store. -/
structure ResolveResult where
  price : Option ℚ
  state : PriceState
  acquiredLimiter : Bool
  calledSource : Bool
  queriedFallback : Bool
deriving DecidableEq

/-- The body of `get_current_price` after a cache miss (lines 40–74): enter
the throttler, attempt the live fetch; on a raised exception query the
fallback store (lines 69–72); on an obtained price store it in the cache
and append it to the history (lines 60–67); when no price was obtained and
nothing raised, fall through to `return None` (line 74) — note this path
does not consult the fallback store. -/
def fetchAndFallback (st : PriceState) (fetch : FetchOutcome) (symbol : String) (now : ℕ) :
    ResolveResult :=
  match fetch with
  | .exn => ⟨getLastKnownPrice st.history symbol, st, true, true, true⟩
  | .ok info histClose =>
    match liveFetchPrice (.ok info histClose) with
    | some p =>
      ⟨some p,
        ⟨storeCache st.cache symbol p now, st.history ++ [⟨symbol, p, now, "yfinance"⟩]⟩,
        true, true, false⟩
    | none => ⟨none, st, true, true, false⟩

/-- `PriceService.get_current_price` (lines 31–74): serve a fresh cache
entry immediately (lines 34–37); otherwise attempt a rate-limited fetch
with fallback.  `now` is the current clock reading; the symbol is used
exactly as given (the source performs no case normalization here). -/
def getCurrentPrice (st : PriceState) (fetch : FetchOutcome) (symbol : String) (now : ℕ) :
    ResolveResult :=
  match lookupCache st.cache symbol with
  | some (cachedPrice, cachedTime) =>
    if now - cachedTime < cacheDuration then
      ⟨some cachedPrice, st, false, false, false⟩
    else fetchAndFallback st fetch symbol now
  | none => fetchAndFallback st fetch symbol now

/-- The cache-hit condition of lines 34–36, as a standalone predicate. -/
def cacheHit (st : PriceState) (s : String) (now : ℕ) : Bool :=
  match lookupCache st.cache s with
  | some (_, t) => now - t < cacheDuration
  | none => false

/-- Outcome of one task spawned by `asyncio.gather(*tasks,
return_exceptions=True)` in `get_multiple_prices`: either the task's value
or the exception it raised. -/
inductive TaskOutcome where
  | val (p : Option ℚ)
  | exn
deriving DecidableEq

/-- The per-symbol join of `get_multiple_prices` (lines 82–87): an
exception outcome is mapped to `None`, a value outcome is kept. -/
def outcomePrice : TaskOutcome → Option ℚ
  | .val p => p
  | .exn => none

/-- Python `price_dict[symbol] = v`: insertion-ordered dictionary update
(overwrite keeps the original position). -/
def dictInsert (d : List (String × Option ℚ)) (k : String) (v : Option ℚ) :
    List (String × Option ℚ) :=
  if d.any (fun e => e.1 == k) then
    d.map (fun e => if e.1 == k then (k, v) else e)
  else d ++ [(k, v)]

/-- Dictionary lookup: `some v` when the key is present (where `v` is the
stored, possibly-null price), `none` when the key is absent. -/
def dictLookup (d : List (String × Option ℚ)) (k : String) : Option (Option ℚ) :=
  (d.find? (fun e => e.1 == k)).map (fun e => e.2)

/-- `PriceService.get_multiple_prices` (lines 76–89): one task per requested
symbol, gathered with `return_exceptions=True`, then joined into one
dictionary in input order; `results` lists the per-task outcomes in the
same order as `symbols` (as `zip(symbols, results)` does). -/
def getMultiplePrices (symbols : List String) (results : List TaskOutcome) :
    List (String × Option ℚ) :=
  (symbols.zip results).foldl (fun d sr => dictInsert d sr.1 (outcomePrice sr.2)) []

/-- A persisted holding (`models.py` `Holding`), restricted to the fields
the metrics computations read: id, owning portfolio, symbol, quantity and
purchase price.  The data model constrains `quantity` and `purchase_price`
to be strictly positive (`Field(gt=0)`). -/
structure Holding where
  id : ℕ
  portfolioId : ℕ
  symbol : String
  quantity : ℚ
  purchasePrice : ℚ
deriving DecidableEq

/-- `models.py` `HoldingCreate`, restricted to the modelled fields. -/
structure HoldingCreate where
  portfolioId : ℕ
  symbol : String
  quantity : ℚ
  purchasePrice : ℚ
deriving DecidableEq

/-- `models.py` `HoldingUpdate`, restricted to the modelled fields: each
`some` field is applied, each `none` field leaves the holding unchanged. -/
structure HoldingUpdate where
  symbol : Option String
  quantity : Option ℚ
  purchasePrice : Option ℚ
deriving DecidableEq

/-- Python `str.upper()` on ticker symbols: character-wise ASCII
uppercasing. -/
def upperStr (s : String) : String :=
  ⟨s.data.map Char.toUpper⟩

/-- `PortfolioService.add_holding` (lines 76–91): the stored holding takes
`holding_data.symbol.upper()`; `newId` is the synthetic primary key the
store assigns. -/
def addHolding (hc : HoldingCreate) (newId : ℕ) : Holding :=
  ⟨newId, hc.portfolioId, upperStr hc.symbol, hc.quantity, hc.purchasePrice⟩

/-- `PortfolioService.update_holding` (lines 104–128), restricted to the
modelled fields: a provided symbol is stored as `symbol.upper()`; absent
fields are left as they were. -/
def updateHolding (h : Holding) (hu : HoldingUpdate) : Holding :=
  { h with
    symbol := match hu.symbol with | some s => upperStr s | none => h.symbol
    quantity := match hu.quantity with | some q => q | none => h.quantity
    purchasePrice := match hu.purchasePrice with | some p => p | none => h.purchasePrice }

/-- `models.py` `HoldingWithMetrics`, restricted to the fields the
aggregation reads.  The calculated fields are optional exactly as in the
source model. -/
structure HoldingWithMetrics where
  id : ℕ
  portfolioId : ℕ
  symbol : String
  quantity : ℚ
  purchasePrice : ℚ
  currentPrice : Option ℚ
  currentValue : Option ℚ
  totalCost : Option ℚ
  absoluteReturn : Option ℚ
  percentageReturn : Option ℚ
deriving DecidableEq

/-- Python `prices.get(holding.symbol)` (line 157): `None` both when the
key is absent and when the key maps to `None`. -/
def priceLookup (prices : List (String × Option ℚ)) (s : String) : Option ℚ :=
  match prices.find? (fun e => e.1 == s) with
  | some e => e.2
  | none => none

/-- The per-holding metrics computation of
`PortfolioService.get_holdings_with_metrics` (lines 157–188): `total_cost`
unconditionally; `current_value`, `absolute_return` only when a current
price is available; `percentage_return` additionally only when
`total_cost > 0`. -/
def computeMetrics (h : Holding) (currentPrice : Option ℚ) : HoldingWithMetrics :=
  let totalCost := h.quantity * h.purchasePrice
  match currentPrice with
  | some cp =>
    let currentValue := h.quantity * cp
    let absoluteReturn := currentValue - totalCost
    let percentageReturn :=
      if totalCost > 0 then some (absoluteReturn / totalCost * 100) else none
    ⟨h.id, h.portfolioId, h.symbol, h.quantity, h.purchasePrice,
      some cp, some currentValue, some totalCost, some absoluteReturn, percentageReturn⟩
  | none =>
    ⟨h.id, h.portfolioId, h.symbol, h.quantity, h.purchasePrice,
      none, none, some totalCost, none, none⟩

/-- `PortfolioService.get_holdings_with_metrics` (lines 141–191), given the
already-resolved price map: each holding is joined with
`prices.get(holding.symbol)` and enriched. -/
def getHoldingsWithMetrics (holdings : List Holding) (prices : List (String × Option ℚ)) :
    List HoldingWithMetrics :=
  holdings.map (fun h => computeMetrics h (priceLookup prices h.symbol))

/-- `models.py` `PortfolioSummary`, restricted to the modelled fields. -/
structure PortfolioSummary where
  portfolioId : ℕ
  totalHoldings : ℕ
  totalCost : ℚ
  totalCurrentValue : ℚ
  totalAbsoluteReturn : ℚ
  totalPercentageReturn : ℚ
  bestPerformer : Option String
  worstPerformer : Option String
deriving DecidableEq

/-- Accumulator of the best/worst scan in `get_portfolio_summary`: the four
loop variables of lines 229–232. -/
structure PerformerScan where
  bestReturn : Option ℚ
  bestPerformer : Option String
  worstReturn : Option ℚ
  worstPerformer : Option String
deriving DecidableEq

/-- One iteration of the scan of lines 234–241: holdings without a
percentage return are skipped; an incumbent best is replaced only on a
strictly greater return, an incumbent worst only on a strictly smaller
one. -/
def performerStep (acc : PerformerScan) (h : HoldingWithMetrics) : PerformerScan :=
  match h.percentageReturn with
  | none => acc
  | some pr =>
    let acc1 :=
      match acc.bestReturn with
      | none => { acc with bestReturn := some pr, bestPerformer := some h.symbol }
      | some br =>
        if pr > br then { acc with bestReturn := some pr, bestPerformer := some h.symbol }
        else acc
    match acc1.worstReturn with
    | none => { acc1 with worstReturn := some pr, worstPerformer := some h.symbol }
    | some wr =>
      if pr < wr then { acc1 with worstReturn := some pr, worstPerformer := some h.symbol }
      else acc1

/-- The single linear scan of lines 229–241, starting from four `None`s. -/
def scanPerformers (hs : List HoldingWithMetrics) : PerformerScan :=
  hs.foldl performerStep ⟨none, none, none, none⟩

/-- `PortfolioService.get_portfolio_summary` (lines 193–254), given the
valued holdings: the empty case returns all-zero totals with default
(`None`) performers (lines 201–211); otherwise totals are accumulated with
`is not None` guards (lines 217–221), the percentage total guards
`total_cost > 0` (lines 224–226), and best/worst come from the scan. -/
def getPortfolioSummary (portfolioId : ℕ) (hs : List HoldingWithMetrics) :
    PortfolioSummary :=
  if hs.isEmpty then
    ⟨portfolioId, 0, 0, 0, 0, 0, none, none⟩
  else
    let totalCost :=
      hs.foldl (fun acc h => match h.totalCost with | some tc => acc + tc | none => acc) 0
    let totalCurrentValue :=
      hs.foldl (fun acc h => match h.currentValue with | some v => acc + v | none => acc) 0
    let totalAbsoluteReturn := totalCurrentValue - totalCost
    let totalPercentageReturn :=
      if totalCost > 0 then totalAbsoluteReturn / totalCost * 100 else 0
    let scan := scanPerformers hs
    ⟨portfolioId, hs.length, totalCost, totalCurrentValue, totalAbsoluteReturn,
      totalPercentageReturn, scan.bestPerformer, scan.worstPerformer⟩

/-! ### Specification-side selection functions

The claim about best/worst-performer selection is a refinement claim: the
spec describes the selected element ("max percentage_return, first
occurrence wins ties"), the source implements a fold.  The following
definitions follow the spec's words and are proved equal to the source
scan. -/

/-- Maximum of a list of rationals (`none` for the empty list). -/
def maxVal : List ℚ → Option ℚ
  | [] => none
  | x :: l => some ((maxVal l).elim x (fun m => max x m))

/-- Minimum of a list of rationals (`none` for the empty list). -/
def minVal : List ℚ → Option ℚ
  | [] => none
  | x :: l => some ((minVal l).elim x (fun m => min x m))

/-- Spec-side selection: the first element of `l` whose first component
attains the maximum ("first occurrence of the maximum wins ties"). -/
def specFirstMax (l : List (ℚ × String)) : Option (ℚ × String) :=
  match maxVal (l.map Prod.fst) with
  | none => none
  | some m => l.find? (fun x => decide (x.1 = m))

/-- Spec-side selection: the first element of `l` whose first component
attains the minimum. -/
def specFirstMin (l : List (ℚ × String)) : Option (ℚ × String) :=
  match minVal (l.map Prod.fst) with
  | none => none
  | some m => l.find? (fun x => decide (x.1 = m))

/-- The (percentage return, symbol) pairs of the holdings that have a
non-null percentage return, in list order. -/
def prPairs (hs : List HoldingWithMetrics) : List (ℚ × String) :=
  hs.filterMap (fun h => h.percentageReturn.map (fun pr => (pr, h.symbol)))

/-- Spec-side best performer of a list of valued holdings. -/
def specBestPerformer (hs : List HoldingWithMetrics) : Option String :=
  (specFirstMax (prPairs hs)).map Prod.snd

/-- Spec-side worst performer of a list of valued holdings. -/
def specWorstPerformer (hs : List HoldingWithMetrics) : Option String :=
  (specFirstMin (prPairs hs)).map Prod.snd

/-- The best-half of one `performerStep` iteration, on (return, symbol)
pairs: replace the incumbent only on a strictly greater return. -/
def bestStep (acc : Option (ℚ × String)) (x : ℚ × String) : Option (ℚ × String) :=
  match acc with
  | none => some x
  | some b => if x.1 > b.1 then some x else some b

/-- The worst-half of one `performerStep` iteration: replace the incumbent
only on a strictly smaller return. -/
def worstStep (acc : Option (ℚ × String)) (x : ℚ × String) : Option (ℚ × String) :=
  match acc with
  | none => some x
  | some b => if x.1 < b.1 then some x else some b

theorem maxVal_cons (x : ℚ) (l : List ℚ) :
    maxVal (x :: l) = some ((maxVal l).elim x (fun m => max x m)) := rfl

theorem minVal_cons (x : ℚ) (l : List ℚ) :
    minVal (x :: l) = some ((minVal l).elim x (fun m => min x m)) := rfl

theorem head_le_maxVal (x : ℚ) (l : List ℚ) (m : ℚ) (h : maxVal (x :: l) = some m) :
    x ≤ m := by
  rw [maxVal_cons] at h
  cases hv : maxVal l with
  | none => rw [hv] at h; simp at h; simp [h]
  | some v => rw [hv] at h; simp at h; simp [← h, le_max_left]

theorem minVal_le_head (x : ℚ) (l : List ℚ) (m : ℚ) (h : minVal (x :: l) = some m) :
    m ≤ x := by
  rw [minVal_cons] at h
  cases hv : minVal l with
  | none => rw [hv] at h; simp at h; simp [h]
  | some v => rw [hv] at h; simp at h; simp [← h, min_le_left]

theorem specFirstMax_eq (l : List (ℚ × String)) (m : ℚ)
    (hm : maxVal (l.map Prod.fst) = some m) :
    specFirstMax l = l.find? (fun x => decide (x.1 = m)) := by
  unfold specFirstMax
  rw [hm]

theorem specFirstMin_eq (l : List (ℚ × String)) (m : ℚ)
    (hm : minVal (l.map Prod.fst) = some m) :
    specFirstMin l = l.find? (fun x => decide (x.1 = m)) := by
  unfold specFirstMin
  rw [hm]

theorem specFirstMax_cons_lt (b x : ℚ × String) (l : List (ℚ × String))
    (h : b.1 < x.1) : specFirstMax (b :: x :: l) = specFirstMax (x :: l) := by
  obtain ⟨m2, hm2⟩ : ∃ m2, maxVal (List.map Prod.fst (x :: l)) = some m2 := by
    simp [List.map_cons, maxVal_cons]
  have hx : x.1 ≤ m2 := head_le_maxVal _ _ _ (by simpa [List.map_cons] using hm2)
  have hb : b.1 < m2 := lt_of_lt_of_le h hx
  have hmb : maxVal (List.map Prod.fst (b :: x :: l)) = some (max b.1 m2) := by
    simp only [List.map_cons] at hm2 ⊢
    rw [maxVal_cons, hm2]
    rfl
  rw [specFirstMax_eq _ _ hmb, specFirstMax_eq _ _ hm2, max_eq_right hb.le,
    List.find?_cons_of_neg _ (by simpa using hb.ne)]

theorem specFirstMin_cons_gt (b x : ℚ × String) (l : List (ℚ × String))
    (h : x.1 < b.1) : specFirstMin (b :: x :: l) = specFirstMin (x :: l) := by
  obtain ⟨m2, hm2⟩ : ∃ m2, minVal (List.map Prod.fst (x :: l)) = some m2 := by
    simp [List.map_cons, minVal_cons]
  have hx : m2 ≤ x.1 := minVal_le_head _ _ _ (by simpa [List.map_cons] using hm2)
  have hb : m2 < b.1 := lt_of_le_of_lt hx h
  have hmb : minVal (List.map Prod.fst (b :: x :: l)) = some (min b.1 m2) := by
    simp only [List.map_cons] at hm2 ⊢
    rw [minVal_cons, hm2]
    rfl
  rw [specFirstMin_eq _ _ hmb, specFirstMin_eq _ _ hm2, min_eq_right hb.le,
    List.find?_cons_of_neg _ (by simpa using hb.ne.symm)]

theorem specFirstMax_cons_dominated (b x : ℚ × String) (l : List (ℚ × String))
    (h : x.1 ≤ b.1) : specFirstMax (b :: x :: l) = specFirstMax (b :: l) := by
  cases hv : maxVal (List.map Prod.fst l) with
  | none =>
    have h1 : maxVal (List.map Prod.fst (b :: x :: l)) = some b.1 := by
      simp only [List.map_cons, maxVal_cons, hv, Option.elim_none, Option.elim_some]
      rw [max_eq_left h]
    have h2 : maxVal (List.map Prod.fst (b :: l)) = some b.1 := by
      simp only [List.map_cons, maxVal_cons, hv, Option.elim_none]
    rw [specFirstMax_eq _ _ h1, specFirstMax_eq _ _ h2,
      List.find?_cons_of_pos _ (by simp), List.find?_cons_of_pos _ (by simp)]
  | some v =>
    have hM : max b.1 (max x.1 v) = max b.1 v := by
      rw [← max_assoc, max_eq_left h]
    have h1 : maxVal (List.map Prod.fst (b :: x :: l)) = some (max b.1 v) := by
      simp only [List.map_cons, maxVal_cons, hv, Option.elim_none, Option.elim_some]
      rw [hM]
    have h2 : maxVal (List.map Prod.fst (b :: l)) = some (max b.1 v) := by
      simp only [List.map_cons, maxVal_cons, hv, Option.elim_none, Option.elim_some]
    rw [specFirstMax_eq _ _ h1, specFirstMax_eq _ _ h2]
    by_cases hbm : b.1 = max b.1 v
    · rw [List.find?_cons_of_pos _ (by simp [← hbm]), List.find?_cons_of_pos _ (by simp [← hbm])]
    · have hblt : b.1 < max b.1 v := lt_of_le_of_ne (le_max_left _ _) hbm
      have hxm : ¬ x.1 = max b.1 v := ne_of_lt (lt_of_le_of_lt h hblt)
      rw [List.find?_cons_of_neg _ (by simpa using hbm), List.find?_cons_of_neg _ (by simpa using hxm),
        List.find?_cons_of_neg _ (by simpa using hbm)]

theorem specFirstMin_cons_dominated (b x : ℚ × String) (l : List (ℚ × String))
    (h : b.1 ≤ x.1) : specFirstMin (b :: x :: l) = specFirstMin (b :: l) := by
  cases hv : minVal (List.map Prod.fst l) with
  | none =>
    have h1 : minVal (List.map Prod.fst (b :: x :: l)) = some b.1 := by
      simp only [List.map_cons, minVal_cons, hv, Option.elim_none, Option.elim_some]
      rw [min_eq_left h]
    have h2 : minVal (List.map Prod.fst (b :: l)) = some b.1 := by
      simp only [List.map_cons, minVal_cons, hv, Option.elim_none]
    rw [specFirstMin_eq _ _ h1, specFirstMin_eq _ _ h2,
      List.find?_cons_of_pos _ (by simp), List.find?_cons_of_pos _ (by simp)]
  | some v =>
    have hM : min b.1 (min x.1 v) = min b.1 v := by
      rw [← min_assoc, min_eq_left h]
    have h1 : minVal (List.map Prod.fst (b :: x :: l)) = some (min b.1 v) := by
      simp only [List.map_cons, minVal_cons, hv, Option.elim_none, Option.elim_some]
      rw [hM]
    have h2 : minVal (List.map Prod.fst (b :: l)) = some (min b.1 v) := by
      simp only [List.map_cons, minVal_cons, hv, Option.elim_none, Option.elim_some]
    rw [specFirstMin_eq _ _ h1, specFirstMin_eq _ _ h2]
    by_cases hbm : b.1 = min b.1 v
    · rw [List.find?_cons_of_pos _ (by simp [← hbm]), List.find?_cons_of_pos _ (by simp [← hbm])]
    · have hblt : min b.1 v < b.1 := lt_of_le_of_ne (min_le_left _ _) (fun hc => hbm hc.symm)
      have hxm : ¬ x.1 = min b.1 v := ne_of_gt (lt_of_lt_of_le hblt h)
      rw [List.find?_cons_of_neg _ (by simpa using hbm), List.find?_cons_of_neg _ (by simpa using hxm),
        List.find?_cons_of_neg _ (by simpa using hbm)]

theorem foldl_bestStep_some (l : List (ℚ × String)) : ∀ b : ℚ × String,
    l.foldl bestStep (some b) = specFirstMax (b :: l) := by
  induction l with
  | nil =>
    intro b
    simp [specFirstMax, maxVal, List.find?]
  | cons x l ih =>
    intro b
    rw [List.foldl_cons]
    by_cases hgt : x.1 > b.1
    · rw [show bestStep (some b) x = some x from by simp [bestStep, hgt], ih x,
        specFirstMax_cons_lt b x l hgt]
    · rw [show bestStep (some b) x = some b from by simp [bestStep, hgt], ih b,
        specFirstMax_cons_dominated b x l (le_of_not_lt hgt)]

theorem foldl_worstStep_some (l : List (ℚ × String)) : ∀ b : ℚ × String,
    l.foldl worstStep (some b) = specFirstMin (b :: l) := by
  induction l with
  | nil =>
    intro b
    simp [specFirstMin, minVal, List.find?]
  | cons x l ih =>
    intro b
    rw [List.foldl_cons]
    by_cases hlt : x.1 < b.1
    · rw [show worstStep (some b) x = some x from by simp [worstStep, hlt], ih x,
        specFirstMin_cons_gt b x l hlt]
    · rw [show worstStep (some b) x = some b from by simp [worstStep, hlt], ih b,
        specFirstMin_cons_dominated b x l (le_of_not_lt hlt)]

theorem foldl_bestStep_none (l : List (ℚ × String)) :
    l.foldl bestStep none = specFirstMax l := by
  cases l with
  | nil => rfl
  | cons x l =>
    rw [List.foldl_cons]
    exact foldl_bestStep_some l x

theorem foldl_worstStep_none (l : List (ℚ × String)) :
    l.foldl worstStep none = specFirstMin l := by
  cases l with
  | nil => rfl
  | cons x l =>
    rw [List.foldl_cons]
    exact foldl_worstStep_some l x

theorem scan_decompose (hs : List HoldingWithMetrics) : ∀ (b w : Option (ℚ × String)),
    hs.foldl performerStep
      ⟨b.map Prod.fst, b.map Prod.snd, w.map Prod.fst, w.map Prod.snd⟩ =
      ⟨((prPairs hs).foldl bestStep b).map Prod.fst,
        ((prPairs hs).foldl bestStep b).map Prod.snd,
        ((prPairs hs).foldl worstStep w).map Prod.fst,
        ((prPairs hs).foldl worstStep w).map Prod.snd⟩ := by
  induction hs with
  | nil =>
    intro b w
    simp [prPairs]
  | cons h hs ih =>
    intro b w
    cases hpr : h.percentageReturn with
    | none =>
      have hstep : performerStep ⟨b.map Prod.fst, b.map Prod.snd,
          w.map Prod.fst, w.map Prod.snd⟩ h =
          ⟨b.map Prod.fst, b.map Prod.snd, w.map Prod.fst, w.map Prod.snd⟩ := by
        simp [performerStep, hpr]
      have hpp : prPairs (h :: hs) = prPairs hs := by
        simp [prPairs, hpr]
      rw [List.foldl_cons, hstep, hpp]
      exact ih b w
    | some pr =>
      have hpp : prPairs (h :: hs) = (pr, h.symbol) :: prPairs hs := by
        simp [prPairs, hpr]
      have hstep : performerStep ⟨b.map Prod.fst, b.map Prod.snd,
          w.map Prod.fst, w.map Prod.snd⟩ h =
          ⟨(bestStep b (pr, h.symbol)).map Prod.fst, (bestStep b (pr, h.symbol)).map Prod.snd,
            (worstStep w (pr, h.symbol)).map Prod.fst,
            (worstStep w (pr, h.symbol)).map Prod.snd⟩ := by
        cases b with
        | none =>
          cases w with
          | none => simp [performerStep, hpr, bestStep, worstStep]
          | some wv =>
            simp only [performerStep, hpr, bestStep, worstStep, Option.map_some,
              Option.map_none]
            by_cases hw : pr < wv.1 <;> simp [hw]
        | some bv =>
          cases w with
          | none =>
            simp only [performerStep, hpr, bestStep, worstStep, Option.map_some,
              Option.map_none]
            by_cases hb : pr > bv.1 <;> simp [hb]
          | some wv =>
            simp only [performerStep, hpr, bestStep, worstStep, Option.map_some,
              Option.map_none]
            by_cases hb : pr > bv.1 <;> by_cases hw : pr < wv.1 <;> simp [hb, hw]
      rw [List.foldl_cons, hstep, hpp, List.foldl_cons]
      exact ih (bestStep b (pr, h.symbol)) (worstStep w (pr, h.symbol))

theorem scanPerformers_eq (hs : List HoldingWithMetrics) :
    scanPerformers hs =
      ⟨(specFirstMax (prPairs hs)).map Prod.fst, (specFirstMax (prPairs hs)).map Prod.snd,
        (specFirstMin (prPairs hs)).map Prod.fst,
        (specFirstMin (prPairs hs)).map Prod.snd⟩ := by
  have h := scan_decompose hs none none
  rw [foldl_bestStep_none, foldl_worstStep_none] at h
  exact h

/-! ### Helper lemmas about the resolver -/

theorem getCurrentPrice_hit (st : PriceState) (fetch : FetchOutcome) (s : String) (now : ℕ)
    (p : ℚ) (t : ℕ) (hl : lookupCache st.cache s = some (p, t))
    (hf : now - t < cacheDuration) :
    getCurrentPrice st fetch s now = ⟨some p, st, false, false, false⟩ := by
  simp only [getCurrentPrice, hl]
  rw [if_pos hf]

theorem getCurrentPrice_miss (st : PriceState) (fetch : FetchOutcome) (s : String) (now : ℕ)
    (hm : cacheHit st s now = false) :
    getCurrentPrice st fetch s now = fetchAndFallback st fetch s now := by
  cases hl : lookupCache st.cache s with
  | none => simp only [getCurrentPrice, hl]
  | some pt =>
    obtain ⟨p, t⟩ := pt
    simp only [cacheHit, hl] at hm
    have hnot : ¬ (now - t < cacheDuration) := of_decide_eq_false hm
    simp only [getCurrentPrice, hl]
    rw [if_neg hnot]

theorem find?_map_overwrite (s : String) (p : ℚ) (t : ℕ) :
    ∀ c : List (String × ℚ × ℕ), c.any (fun e => e.1 == s) = true →
      (c.map (fun e => if e.1 == s then (s, p, t) else e)).find? (fun e => e.1 == s) =
        some (s, p, t) := by
  intro c
  induction c with
  | nil => intro h; simp at h
  | cons e c ih =>
    intro h
    by_cases he : e.1 == s
    · rw [List.map_cons, if_pos he, List.find?_cons_of_pos _ (by simp)]
    · have h2 : c.any (fun e => e.1 == s) = true := by
        simp only [List.any_cons, he] at h
        simpa using h
      rw [List.map_cons, if_neg he, List.find?_cons_of_neg _ (by simpa using he)]
      exact ih h2

theorem lookupCache_storeCache_self (c : List (String × ℚ × ℕ)) (s : String) (p : ℚ) (t : ℕ) :
    lookupCache (storeCache c s p t) s = some (p, t) := by
  unfold storeCache
  by_cases hany : c.any (fun e => e.1 == s)
  · rw [if_pos hany]
    unfold lookupCache
    rw [find?_map_overwrite s p t c hany]
    rfl
  · rw [if_neg hany]
    unfold lookupCache
    have hnone : c.find? (fun e => e.1 == s) = none := by
      rw [List.find?_eq_none]
      intro x hx hpx
      exact hany (List.any_eq_true.mpr ⟨x, hx, hpx⟩)
    rw [List.find?_append, hnone]
    simp [List.find?]

theorem lastQuoteFor_all_ne (s : String) :
    ∀ (history : List Quote), (∀ q ∈ history, (q.symbol == s) = false) →
    ∀ acc : Option Quote,
      history.foldl
        (fun acc q =>
          if q.symbol == s then
            match acc with
            | none => some q
            | some b => if b.timestamp ≤ q.timestamp then some q else some b
          else acc) acc = acc := by
  intro history
  induction history with
  | nil => intro _ acc; rfl
  | cons q l ih =>
    intro hall acc
    rw [List.foldl_cons, if_neg (by simp [hall q (List.mem_cons_self q l)])]
    exact ih (fun q2 hq2 => hall q2 (List.mem_cons_of_mem _ hq2)) acc

/-! ### Helper lemmas about the summary accumulations -/

theorem foldl_totalCost (hs : List HoldingWithMetrics) : ∀ acc : ℚ,
    hs.foldl (fun acc h => match h.totalCost with | some tc => acc + tc | none => acc) acc =
      acc + (hs.map (fun h => h.totalCost.getD 0)).sum := by
  induction hs with
  | nil => intro acc; simp
  | cons h hs ih =>
    intro acc
    rw [List.foldl_cons]
    cases hf : h.totalCost with
    | none =>
      simp only [hf]
      rw [ih acc]
      simp [hf]
    | some v =>
      simp only [hf]
      rw [ih (acc + v)]
      simp [hf, add_assoc]

theorem foldl_currentValue (hs : List HoldingWithMetrics) : ∀ acc : ℚ,
    hs.foldl (fun acc h => match h.currentValue with | some v => acc + v | none => acc) acc =
      acc + (hs.map (fun h => h.currentValue.getD 0)).sum := by
  induction hs with
  | nil => intro acc; simp
  | cons h hs ih =>
    intro acc
    rw [List.foldl_cons]
    cases hf : h.currentValue with
    | none =>
      simp only [hf]
      rw [ih acc]
      simp [hf]
    | some v =>
      simp only [hf]
      rw [ih (acc + v)]
      simp [hf, add_assoc]

/-! ### Claim theorems -/

/-- C2: a cache lookup in `get_current_price` is a hit iff an entry for the
symbol exists and `now − retrieved_at < 300`; on a hit the cached price is
returned immediately with the state unchanged, no quote-source call and no
rate-limiter acquisition; on a stale entry (treated as absent, not
evicted — it is still present afterwards) and on a missing entry a fresh
fetch is attempted. -/
theorem c2_cache_policy (st : PriceState) (fetch : FetchOutcome) (s : String) (now : ℕ) :
    (∀ p t, lookupCache st.cache s = some (p, t) → now - t < cacheDuration →
      getCurrentPrice st fetch s now = ⟨some p, st, false, false, false⟩) ∧
    (∀ p t, lookupCache st.cache s = some (p, t) → ¬ (now - t < cacheDuration) →
      (getCurrentPrice st fetch s now).calledSource = true ∧
      (getCurrentPrice st fetch s now).acquiredLimiter = true ∧
      lookupCache (getCurrentPrice st fetch s now).state.cache s ≠ none) ∧
    (lookupCache st.cache s = none →
      (getCurrentPrice st fetch s now).calledSource = true ∧
      (getCurrentPrice st fetch s now).acquiredLimiter = true) := by
  refine ⟨?_, ?_, ?_⟩
  · intro p t hl hf
    exact getCurrentPrice_hit st fetch s now p t hl hf
  · intro p t hl hf
    have hm : cacheHit st s now = false := by
      simp only [cacheHit, hl]
      exact decide_eq_false hf
    rw [getCurrentPrice_miss st fetch s now hm]
    unfold fetchAndFallback
    cases fetch with
    | exn => simp [hl]
    | ok info hc =>
      cases hp : liveFetchPrice (.ok info hc) with
      | some p2 =>
        simp only [hp]
        simp [lookupCache_storeCache_self]
      | none =>
        simp only [hp]
        simp [hl]
  · intro hl
    have hm : cacheHit st s now = false := by simp [cacheHit, hl]
    rw [getCurrentPrice_miss st fetch s now hm]
    unfold fetchAndFallback
    cases fetch with
    | exn => simp
    | ok info hc =>
      cases hp : liveFetchPrice (.ok info hc) with
      | some p2 => simp [hp]
      | none => simp [hp]

/-- Witness for C2 at a concrete input: a cache entry retrieved 50 seconds
ago is a hit and is served without any provider interaction. -/
theorem c2_cache_policy_witness :
    getCurrentPrice ⟨[("AAPL", 100, 50)], []⟩ .exn "AAPL" 100 =
      ⟨some 100, ⟨[("AAPL", 100, 50)], []⟩, false, false, false⟩ :=
  (c2_cache_policy ⟨[("AAPL", 100, 50)], []⟩ .exn "AAPL" 100).1 100 50 (by decide) (by decide)

/-- C1 counterexample: the claim asserts the fallback store is queried on
every way of failing to obtain a price, including the non-exceptional case
of a provider response with no usable price field and an empty provider
history.  At the concrete state below the fallback store holds a quote for
"AAPL" at price 42, the provider response is non-exceptional with no
usable field and empty history — yet `get_current_price` returns `none`
and never consults the fallback store. -/
theorem c1_counterexample :
    lastQuoteFor (PriceState.mk [] [⟨"AAPL", 42, 5, "yfinance"⟩]).history "AAPL" =
        some ⟨"AAPL", 42, 5, "yfinance"⟩ ∧
    (getCurrentPrice ⟨[], [⟨"AAPL", 42, 5, "yfinance"⟩]⟩
        (.ok ⟨none, none, none, none⟩ none) "AAPL" 10).price = none ∧
    (getCurrentPrice ⟨[], [⟨"AAPL", 42, 5, "yfinance"⟩]⟩
        (.ok ⟨none, none, none, none⟩ none) "AAPL" 10).queriedFallback = false := by
  refine ⟨by decide, by decide, by decide⟩

/-- C1 (amended): on a cache miss, when the quote source attempt raises
(network error or malformed data), `get_current_price` does not raise; it
queries the fallback store and returns the most recent persisted price for
the symbol, or `none` when no history exists.  In the non-exceptional case
where the provider response has no usable price field and the provider's
own history is empty, it returns `none` without querying the fallback
store. -/
theorem c1_exception_fallback (st : PriceState) (s : String) (now : ℕ)
    (hm : cacheHit st s now = false) :
    (getCurrentPrice st .exn s now =
      ⟨getLastKnownPrice st.history s, st, true, true, true⟩) ∧
    (st.history.filter (fun q => q.symbol == s) = [] → getLastKnownPrice st.history s = none) ∧
    (∀ info, tryPriceFields info = none →
      getCurrentPrice st (.ok info none) s now = ⟨none, st, true, true, false⟩) := by
  refine ⟨?_, ?_, ?_⟩
  · rw [getCurrentPrice_miss st .exn s now hm]
    rfl
  · intro hnone
    unfold getLastKnownPrice lastQuoteFor
    have hall : ∀ q ∈ st.history, (q.symbol == s) = false := by
      intro q hq
      simpa using List.filter_eq_nil_iff.mp hnone q hq
    rw [lastQuoteFor_all_ne s st.history hall none]
    rfl
  · intro info hfields
    rw [getCurrentPrice_miss st (.ok info none) s now hm]
    unfold fetchAndFallback
    simp only [liveFetchPrice, hfields]

/-- Witness for C1 (amended): with one persisted quote for "AAPL" (price
42), an exception-path resolution of "AAPL" returns 42 from the fallback
store without touching the state. -/
theorem c1_exception_fallback_witness :
    getCurrentPrice ⟨[], [⟨"AAPL", 42, 5, "yfinance"⟩]⟩ .exn "AAPL" 10 =
      ⟨some 42, ⟨[], [⟨"AAPL", 42, 5, "yfinance"⟩]⟩, true, true, true⟩ := by
  have h := (c1_exception_fallback ⟨[], [⟨"AAPL", 42, 5, "yfinance"⟩]⟩ "AAPL" 10 (by decide)).1
  rw [h]
  decide

/-- C10: when `get_current_price` resolves via the failure path (cache
miss and no price obtained live), the cache and the quote history are left
unchanged — a fallback-returned price is never cached — so a subsequent
resolution of the same symbol at any later time, before any successful
live fetch, attempts the quote source again instead of hitting the
cache. -/
theorem c10_failure_frame (st : PriceState) (fetch : FetchOutcome) (s : String) (now : ℕ)
    (hm : cacheHit st s now = false) (hfail : liveFetchPrice fetch = none) :
    (getCurrentPrice st fetch s now).state = st ∧
    (∀ now2, now ≤ now2 → ∀ fetch2,
      (getCurrentPrice (getCurrentPrice st fetch s now).state fetch2 s now2).calledSource
        = true) := by
  have hstate : (getCurrentPrice st fetch s now).state = st := by
    rw [getCurrentPrice_miss st fetch s now hm]
    cases fetch with
    | exn => rfl
    | ok info hc =>
      unfold fetchAndFallback
      simp only [hfail]
  refine ⟨hstate, ?_⟩
  intro now2 hle fetch2
  rw [hstate]
  have hm2 : cacheHit st s now2 = false := by
    unfold cacheHit at hm ⊢
    cases hl : lookupCache st.cache s with
    | none => rfl
    | some pt =>
      obtain ⟨p, t⟩ := pt
      rw [hl] at hm
      have hnot : ¬ (now - t < cacheDuration) := of_decide_eq_false hm
      have hnot2 : ¬ (now2 - t < cacheDuration) := by
        intro hcon
        exact hnot (lt_of_le_of_lt (Nat.sub_le_sub_right hle t) hcon)
      exact decide_eq_false hnot2
  rw [getCurrentPrice_miss st fetch2 s now2 hm2]
  unfold fetchAndFallback
  cases fetch2 with
  | exn => rfl
  | ok info hc =>
    cases hp : liveFetchPrice (.ok info hc) with
    | some p2 => simp only [hp]
    | none => simp only [hp]

/-- Witness for C10 at a concrete input: a stale cache entry (age 400s)
plus an exception-path fetch leaves the state unchanged, and a resolution
60 seconds later still calls the source. -/
theorem c10_failure_frame_witness :
    (getCurrentPrice ⟨[("AAPL", 100, 0)], []⟩ .exn "AAPL" 400).state =
        ⟨[("AAPL", 100, 0)], []⟩ ∧
    (getCurrentPrice (getCurrentPrice ⟨[("AAPL", 100, 0)], []⟩ .exn "AAPL" 400).state
        .exn "AAPL" 460).calledSource = true := by
  have h := c10_failure_frame ⟨[("AAPL", 100, 0)], []⟩ .exn "AAPL" 400 (by decide) (by decide)
  exact ⟨h.1, h.2 460 (by decide) .exn⟩

/-- Positivity of an optional raw provider value (`true` for absent). -/
def posOpt (o : Option ℚ) : Bool :=
  match o with
  | none => true
  | some c => decide (0 < c)

theorem posOpt_some (o : Option ℚ) (p : ℚ) (ho : o = some p) (h : posOpt o = true) :
    0 < p := by
  rw [ho] at h
  exact of_decide_eq_true h

theorem tryPriceFields_cases (info : RawInfo) (p : ℚ) (h : tryPriceFields info = some p) :
    info.currentPrice = some p ∨ info.regularMarketPrice = some p ∨ info.price = some p ∨
      info.lastPrice = some p := by
  unfold tryPriceFields at h
  cases h1 : info.currentPrice with
  | some c =>
    rw [h1] at h
    simp at h
    exact Or.inl (congrArg some h)
  | none =>
    rw [h1] at h
    cases h2 : info.regularMarketPrice with
    | some c =>
      rw [h2] at h
      simp at h
      exact Or.inr (Or.inl (congrArg some h))
    | none =>
      rw [h2] at h
      cases h3 : info.price with
      | some c =>
        rw [h3] at h
        simp at h
        exact Or.inr (Or.inr (Or.inl (congrArg some h)))
      | none =>
        rw [h3] at h
        exact Or.inr (Or.inr (Or.inr h))

theorem liveFetchPrice_cases (info : RawInfo) (histClose : Option ℚ) (p : ℚ)
    (h : liveFetchPrice (.ok info histClose) = some p) :
    info.currentPrice = some p ∨ info.regularMarketPrice = some p ∨ info.price = some p ∨
      info.lastPrice = some p ∨ histClose = some p := by
  simp only [liveFetchPrice] at h
  cases ht : tryPriceFields info with
  | some q =>
    rw [ht] at h
    simp at h
    rcases tryPriceFields_cases info q ht with h1 | h1 | h1 | h1
    · exact Or.inl (h1.trans (congrArg some h))
    · exact Or.inr (Or.inl (h1.trans (congrArg some h)))
    · exact Or.inr (Or.inr (Or.inl (h1.trans (congrArg some h))))
    · exact Or.inr (Or.inr (Or.inr (Or.inl (h1.trans (congrArg some h)))))
  | none =>
    rw [ht] at h
    exact Or.inr (Or.inr (Or.inr (Or.inr h)))

/-- C4: on a cache miss whose live fetch succeeds, the price is obtained by
probing provider fields in the fixed preference order (current price,
regular-market price, generic price, last price), falling back to the most
recent historical close from the provider's own history endpoint when none
is present; on obtaining a price the call stores it in the cache under the
symbol and appends it to the quote history, then returns it; the price is
positive whenever the raw provider data is positive. -/
theorem c4_success_path (st : PriceState) (s : String) (now : ℕ) (info : RawInfo)
    (histClose : Option ℚ) (hm : cacheHit st s now = false) :
    (∀ c, info.currentPrice = some c → tryPriceFields info = some c) ∧
    (info.currentPrice = none → ∀ c, info.regularMarketPrice = some c →
      tryPriceFields info = some c) ∧
    (info.currentPrice = none → info.regularMarketPrice = none →
      ∀ c, info.price = some c → tryPriceFields info = some c) ∧
    (info.currentPrice = none → info.regularMarketPrice = none → info.price = none →
      tryPriceFields info = info.lastPrice) ∧
    (tryPriceFields info = none → liveFetchPrice (.ok info histClose) = histClose) ∧
    (∀ p, liveFetchPrice (.ok info histClose) = some p →
      getCurrentPrice st (.ok info histClose) s now =
        ⟨some p, ⟨storeCache st.cache s p now, st.history ++ [⟨s, p, now, "yfinance"⟩]⟩,
          true, true, false⟩ ∧
      lookupCache (storeCache st.cache s p now) s = some (p, now)) ∧
    (∀ p, liveFetchPrice (.ok info histClose) = some p →
      posOpt info.currentPrice = true → posOpt info.regularMarketPrice = true →
      posOpt info.price = true → posOpt info.lastPrice = true → posOpt histClose = true →
      0 < p) := by
  refine ⟨?_, ?_, ?_, ?_, ?_, ?_, ?_⟩
  · intro c hc
    simp [tryPriceFields, hc]
  · intro h1 c hc
    simp [tryPriceFields, h1, hc]
  · intro h1 h2 c hc
    simp [tryPriceFields, h1, h2, hc]
  · intro h1 h2 h3
    simp [tryPriceFields, h1, h2, h3]
  · intro ht
    simp [liveFetchPrice, ht]
  · intro p hp
    constructor
    · rw [getCurrentPrice_miss st (.ok info histClose) s now hm]
      unfold fetchAndFallback
      simp only [hp]
    · exact lookupCache_storeCache_self st.cache s p now
  · intro p hp pc pr pp pl ph
    rcases liveFetchPrice_cases info histClose p hp with h1 | h1 | h1 | h1 | h1
    · exact posOpt_some _ _ h1 pc
    · exact posOpt_some _ _ h1 pr
    · exact posOpt_some _ _ h1 pp
    · exact posOpt_some _ _ h1 pl
    · exact posOpt_some _ _ h1 ph

/-- Witness for C4 at a concrete input: a response carrying only a
regular-market price of 5 resolves to 5, stores it in the cache and appends
it to the history. -/
theorem c4_success_path_witness :
    getCurrentPrice ⟨[], []⟩ (.ok ⟨none, some 5, none, none⟩ none) "AAPL" 0 =
      ⟨some 5, ⟨[("AAPL", 5, 0)], [⟨"AAPL", 5, 0, "yfinance"⟩]⟩, true, true, false⟩ := by
  have h := ((c4_success_path ⟨[], []⟩ "AAPL" 0 ⟨none, some 5, none, none⟩ none
    (by decide)).2.2.2.2.2.1 5 (by decide)).1
  rw [h]
  decide

/-- One pass of sequential resolutions sharing a clock instant, threading
the service state and counting how many calls invoked the quote source. -/
def resolveAll (st : PriceState) (fetch : String → FetchOutcome) (syms : List String)
    (now : ℕ) : PriceState × ℕ :=
  syms.foldl
    (fun acc s =>
      ((getCurrentPrice acc.1 (fetch s) s now).state,
        acc.2 + (if (getCurrentPrice acc.1 (fetch s) s now).calledSource then 1 else 0)))
    (st, 0)

/-- C9 (refuting evaluation): the shipped throttler enforces nothing.  Its
enter/exit operations return immediately with unchanged state and clock for
every throttler and every instant, and a batch of 11 cache-missing
resolutions issued at one instant — all inside a single 60-second window —
performs 11 quote-source calls, exceeding the configured quota of 10 per
60 seconds. -/
theorem c9_throttler_unenforced :
    (∀ (t : SimpleThrottler) (time : ℕ), t.aenter time = (t, time) ∧ t.aexit time = (t, time)) ∧
    serviceThrottler.rate_limit = 10 ∧ serviceThrottler.period = 60 ∧
    (resolveAll ⟨[], []⟩ (fun _ => .exn)
      ["S01", "S02", "S03", "S04", "S05", "S06", "S07", "S08", "S09", "S10", "S11"] 0).2 = 11 ∧
    serviceThrottler.rate_limit < 11 := by
  exact ⟨fun t time => ⟨rfl, rfl⟩, rfl, rfl, by decide, by decide⟩

/-- C8 counterexample: the claim asserts `get_current_price` keys the
cache on the canonical uppercase form, so any letter case gives the same
result; but with "AAPL" freshly cached, resolving "aapl" misses the cache
and calls the source while resolving "AAPL" hits it, giving different
results. -/
theorem c8_counterexample :
    (getCurrentPrice ⟨[("AAPL", 100, 0)], []⟩ .exn "aapl" 0).price ≠
      (getCurrentPrice ⟨[("AAPL", 100, 0)], []⟩ .exn "AAPL" 0).price ∧
    (getCurrentPrice ⟨[("AAPL", 100, 0)], []⟩ .exn "aapl" 0).calledSource = true ∧
    (getCurrentPrice ⟨[("AAPL", 100, 0)], []⟩ .exn "AAPL" 0).calledSource = false := by
  exact ⟨by decide, by decide, by decide⟩

/-- C8 (amended): the storing operations normalize symbols to uppercase —
`add_holding` stores `symbol.upper()` and `update_holding` stores
`symbol.upper()` when a symbol is provided, keeping the old one otherwise —
while `get_current_price` keys the cache and fallback store on the symbol
string exactly as given, without normalization; hence resolution agrees
with the uppercase form exactly when the symbol is already uppercase (as
holds for every symbol read back from stored holdings). -/
theorem c8_uppercase_storage (hc : HoldingCreate) (newId : ℕ) (h : Holding)
    (hu : HoldingUpdate) (st : PriceState) (fetch : FetchOutcome) (now : ℕ) (s : String)
    (hup : upperStr s = s) :
    (addHolding hc newId).symbol = upperStr hc.symbol ∧
    (∀ s2, hu.symbol = some s2 → (updateHolding h hu).symbol = upperStr s2) ∧
    (hu.symbol = none → (updateHolding h hu).symbol = h.symbol) ∧
    getCurrentPrice st fetch s now = getCurrentPrice st fetch (upperStr s) now := by
  refine ⟨rfl, ?_, ?_, by rw [hup]⟩
  · intro s2 h2
    simp [updateHolding, h2]
  · intro h2
    simp [updateHolding, h2]

/-- Witness for C8 (amended) at a concrete input: adding a holding with
symbol "aapl" stores "AAPL". -/
theorem c8_uppercase_storage_witness :
    (addHolding ⟨1, "aapl", 1, 1⟩ 7).symbol = "AAPL" := by
  have h := (c8_uppercase_storage ⟨1, "aapl", 1, 1⟩ 7 ⟨7, 1, "X", 1, 1⟩ ⟨none, none, none⟩
    ⟨[], []⟩ .exn 0 "AAPL" (by decide)).1
  rw [h]
  decide

/-! ### Helper lemmas about the batch-join dictionary -/

theorem find?_map_overwrite2 (k : String) (v : Option ℚ) :
    ∀ d : List (String × Option ℚ), d.any (fun e => e.1 == k) = true →
      (d.map (fun e => if e.1 == k then (k, v) else e)).find? (fun e => e.1 == k) =
        some (k, v) := by
  intro d
  induction d with
  | nil => intro h; simp at h
  | cons e d ih =>
    intro h
    by_cases he : e.1 == k
    · rw [List.map_cons, if_pos he, List.find?_cons_of_pos _ (by simp)]
    · have h2 : d.any (fun e => e.1 == k) = true := by
        simp only [List.any_cons, he] at h
        simpa using h
      rw [List.map_cons, if_neg he, List.find?_cons_of_neg _ (by simpa using he)]
      exact ih h2

theorem dictLookup_dictInsert_self (d : List (String × Option ℚ)) (k : String)
    (v : Option ℚ) : dictLookup (dictInsert d k v) k = some v := by
  unfold dictInsert
  by_cases hany : d.any (fun e => e.1 == k)
  · rw [if_pos hany]
    unfold dictLookup
    rw [find?_map_overwrite2 k v d hany]
    rfl
  · rw [if_neg hany]
    unfold dictLookup
    have hnone : d.find? (fun e => e.1 == k) = none := by
      rw [List.find?_eq_none]
      intro x hx hpx
      exact hany (List.any_eq_true.mpr ⟨x, hx, hpx⟩)
    rw [List.find?_append, hnone]
    simp [List.find?]

theorem find?_map_other (k k2 : String) (v : Option ℚ) (hne : k2 ≠ k) :
    ∀ d : List (String × Option ℚ),
      (d.map (fun e => if e.1 == k then (k, v) else e)).find? (fun e => e.1 == k2) =
        d.find? (fun e => e.1 == k2) := by
  intro d
  induction d with
  | nil => rfl
  | cons e d ih =>
    by_cases he : e.1 == k
    · have hek : e.1 = k := by simpa using he
      rw [List.map_cons, if_pos he, List.find?_cons_of_neg _ (by simp [hne.symm]),
        List.find?_cons_of_neg _ (by simp [hek, hne.symm]), ih]
    · rw [List.map_cons, if_neg he]
      by_cases hp : e.1 == k2
      · rw [List.find?_cons_of_pos (p := fun e : String × Option ℚ => e.1 == k2) _ hp,
          List.find?_cons_of_pos (p := fun e : String × Option ℚ => e.1 == k2) _ hp]
      · rw [List.find?_cons_of_neg (p := fun e : String × Option ℚ => e.1 == k2) _ hp,
          List.find?_cons_of_neg (p := fun e : String × Option ℚ => e.1 == k2) _ hp, ih]

theorem dictLookup_dictInsert_other (d : List (String × Option ℚ)) (k k2 : String)
    (v : Option ℚ) (hne : k2 ≠ k) :
    dictLookup (dictInsert d k v) k2 = dictLookup d k2 := by
  unfold dictInsert
  by_cases hany : d.any (fun e => e.1 == k)
  · rw [if_pos hany]
    unfold dictLookup
    rw [find?_map_other k k2 v hne d]
  · rw [if_neg hany]
    unfold dictLookup
    have hone : [(k, v)].find? (fun e => e.1 == k2) = none := by
      simp [hne.symm]
    rw [List.find?_append, hone]
    simp

theorem find?_unique {α : Type} (p : α → Bool) :
    ∀ (l : List α) (x : α), x ∈ l → p x = true → (∀ y ∈ l, p y = true → y = x) →
      l.find? p = some x := by
  intro l
  induction l with
  | nil => intro x hx; simp at hx
  | cons a l ih =>
    intro x hx hpx huniq
    by_cases hpa : p a
    · have hax : a = x := huniq a (List.mem_cons_self a l) hpa
      rw [List.find?_cons_of_pos _ hpa, hax]
    · rw [List.find?_cons_of_neg _ hpa]
      have hx2 : x ∈ l := by
        cases List.mem_cons.mp hx with
        | inl h => exact absurd (h ▸ hpx) (by simpa using hpa)
        | inr h => exact h
      exact ih x hx2 hpx (fun y hy hpy => huniq y (List.mem_cons_of_mem _ hy) hpy)

theorem dictLookup_buildFold (k : String) :
    ∀ (pairs : List (String × TaskOutcome)) (d : List (String × Option ℚ)),
      dictLookup (pairs.foldl (fun d sr => dictInsert d sr.1 (outcomePrice sr.2)) d) k =
        (match pairs.reverse.find? (fun sr => sr.1 == k) with
          | some sr => some (outcomePrice sr.2)
          | none => dictLookup d k) := by
  intro pairs
  induction pairs with
  | nil => intro d; simp
  | cons sr pairs ih =>
    intro d
    rw [List.foldl_cons, ih (dictInsert d sr.1 (outcomePrice sr.2))]
    have hrev : (sr :: pairs).reverse = pairs.reverse ++ [sr] := by simp
    rw [hrev, List.find?_append]
    cases hf : pairs.reverse.find? (fun sr2 => sr2.1 == k) with
    | some sr2 => simp
    | none =>
      simp only [Option.none_or]
      by_cases hk : sr.1 == k
      · have hks : sr.1 = k := by simpa using hk
        rw [List.find?_cons_of_pos (p := fun sr : String × TaskOutcome => sr.1 == k) _ hk]
        simp only []
        rw [← hks, dictLookup_dictInsert_self]
      · rw [List.find?_cons_of_neg (p := fun sr : String × TaskOutcome => sr.1 == k) _ hk, List.find?_nil]
        simp only []
        have hks2 : ¬ sr.1 = k := by simpa using hk
        exact dictLookup_dictInsert_other d sr.1 k (outcomePrice sr.2)
          (fun hc => hks2 hc.symm)

theorem gmp_value_at (symbols : List String) (results : List TaskOutcome)
    (hlen : results.length = symbols.length) (hnd : symbols.Nodup)
    (i : ℕ) (hi : i < symbols.length) (hi2 : i < results.length) :
    dictLookup (getMultiplePrices symbols results) symbols[i] =
      some (outcomePrice results[i]) := by
  have hz : i < (symbols.zip results).length := by
    rw [List.length_zip]
    omega
  have hpair : (symbols.zip results)[i] = (symbols[i], results[i]) :=
    List.getElem_zip (h := hz)
  have hfind : (symbols.zip results).reverse.find? (fun sr => sr.1 == symbols[i]) =
      some (symbols[i], results[i]) := by
    apply find?_unique
    · rw [List.mem_reverse, ← hpair]
      exact List.getElem_mem hz
    · simp
    · intro y hy hpy
      rw [List.mem_reverse] at hy
      obtain ⟨j, hj, hyj⟩ := List.getElem_of_mem hy
      have hjs : j < symbols.length := by
        rw [List.length_zip] at hj
        omega
      have hjr : j < results.length := by
        rw [List.length_zip] at hj
        omega
      have hyj2 : y = (symbols[j], results[j]) := by
        rw [← hyj]
        exact List.getElem_zip (h := hj)
      have hy1 : y.1 = symbols[i] := by simpa using hpy
      have hj_eq : symbols[j] = symbols[i] := by
        rw [hyj2] at hy1
        simpa using hy1
      have hji : j = i := (List.Nodup.getElem_inj_iff hnd).mp hj_eq
      rw [hyj2]
      subst hji
      rfl
  unfold getMultiplePrices
  rw [dictLookup_buildFold symbols[i] (symbols.zip results) [], hfind]

theorem gmp_keys (symbols : List String) (results : List TaskOutcome)
    (hlen : results.length = symbols.length) (s : String) :
    dictLookup (getMultiplePrices symbols results) s ≠ none ↔ s ∈ symbols := by
  unfold getMultiplePrices
  rw [dictLookup_buildFold s (symbols.zip results) []]
  cases hf : (symbols.zip results).reverse.find? (fun sr => sr.1 == s) with
  | some sr =>
    show some (outcomePrice sr.2) ≠ none ↔ s ∈ symbols
    constructor
    · intro _
      have hmem := List.mem_of_find?_eq_some hf
      rw [List.mem_reverse] at hmem
      have hpred := List.find?_some hf
      obtain ⟨a, b⟩ := sr
      have ha : a = s := by simpa using hpred
      have hmem1 := (List.of_mem_zip hmem).1
      rw [← ha]
      exact hmem1
    · intro _
      simp
  | none =>
    show dictLookup [] s ≠ none ↔ s ∈ symbols
    constructor
    · intro hne
      exact absurd rfl hne
    · intro hs
      exfalso
      rw [List.find?_eq_none] at hf
      obtain ⟨i, hi, hgets⟩ := List.mem_iff_getElem.mp hs
      have hi2 : i < results.length := by omega
      have hz : i < (symbols.zip results).length := by
        rw [List.length_zip]
        omega
      have hpair : (symbols.zip results)[i] = (symbols[i], results[i]) :=
        List.getElem_zip (h := hz)
      exact hf (symbols[i], results[i])
        (by rw [List.mem_reverse, ← hpair]; exact List.getElem_mem hz)
        (by simp [hgets])

/-- C3: with one gathered outcome per requested symbol,
`get_multiple_prices` returns a mapping whose keys are exactly the input
symbols; for distinct symbols the entry of the i-th symbol is exactly the
joined value of its own task — in particular a task that raised is mapped
to a null price — and the entry for one symbol is unaffected by changes to
any other symbol's outcome (per-symbol failures are isolated and never
abort the batch). -/
theorem c3_batch_join (symbols : List String) (results : List TaskOutcome)
    (hlen : results.length = symbols.length) :
    (∀ s, dictLookup (getMultiplePrices symbols results) s ≠ none ↔ s ∈ symbols) ∧
    (symbols.Nodup → ∀ i (hi : i < symbols.length) (hi2 : i < results.length),
      dictLookup (getMultiplePrices symbols results) symbols[i] =
        some (outcomePrice results[i])) ∧
    (symbols.Nodup → ∀ i (hi : i < symbols.length) (hi2 : i < results.length),
      results[i] = .exn →
      dictLookup (getMultiplePrices symbols results) symbols[i] = some none) ∧
    (symbols.Nodup → ∀ (results2 : List TaskOutcome), results2.length = symbols.length →
      ∀ i (hi : i < symbols.length) (hi2 : i < results.length) (hi3 : i < results2.length),
      results[i] = results2[i] →
      dictLookup (getMultiplePrices symbols results) symbols[i] =
        dictLookup (getMultiplePrices symbols results2) symbols[i]) := by
  refine ⟨gmp_keys symbols results hlen, ?_, ?_, ?_⟩
  · intro hnd i hi hi2
    exact gmp_value_at symbols results hlen hnd i hi hi2
  · intro hnd i hi hi2 hexn
    rw [gmp_value_at symbols results hlen hnd i hi hi2, hexn]
    rfl
  · intro hnd results2 hlen2 i hi hi2 hi3 hagree
    rw [gmp_value_at symbols results hlen hnd i hi hi2,
      gmp_value_at symbols results2 hlen2 hnd i hi hi3, hagree]

/-- Witness for C3 at a concrete input: of two symbols, the second task
raised and is joined as a null price, while the key set is exactly the
input. -/
theorem c3_batch_join_witness :
    dictLookup (getMultiplePrices ["AAPL", "INVALID"] [.val (some 100), .exn]) "INVALID" =
      some none ∧
    (dictLookup (getMultiplePrices ["AAPL", "INVALID"] [.val (some 100), .exn]) "AAPL" ≠
      none ↔ "AAPL" ∈ ["AAPL", "INVALID"]) := by
  have h := c3_batch_join ["AAPL", "INVALID"] [.val (some 100), .exn] (by decide)
  exact ⟨h.2.2.1 (by decide) 1 (by decide) (by decide) rfl, h.1 "AAPL"⟩

/-- C5: for every holding of the portfolio, `get_holdings_with_metrics`
enriches the i-th holding with metrics computed from its own price-map
entry: total_cost = quantity × purchase_price unconditionally; when a
non-null current price exists, current_value = quantity × current_price,
absolute_return = current_value − total_cost and percentage_return =
absolute_return / total_cost × 100 (null when total_cost is zero); when the
current price is absent all three are null. -/
theorem c5_holding_metrics (holdings : List Holding) (prices : List (String × Option ℚ))
    (i : ℕ) (hi : i < holdings.length) (h : Holding) (hh : holdings[i] = h)
    (cp : Option ℚ) (hcp : priceLookup prices h.symbol = cp) :
    (getHoldingsWithMetrics holdings prices)[i]? = some (computeMetrics h cp) ∧
    (computeMetrics h cp).totalCost = some (h.quantity * h.purchasePrice) ∧
    (cp = none →
      (computeMetrics h cp).currentValue = none ∧
      (computeMetrics h cp).absoluteReturn = none ∧
      (computeMetrics h cp).percentageReturn = none) ∧
    (∀ p, cp = some p →
      (computeMetrics h cp).currentValue = some (h.quantity * p) ∧
      (computeMetrics h cp).absoluteReturn =
        some (h.quantity * p - h.quantity * h.purchasePrice) ∧
      (h.quantity * h.purchasePrice = 0 → (computeMetrics h cp).percentageReturn = none) ∧
      (0 < h.quantity * h.purchasePrice →
        (computeMetrics h cp).percentageReturn =
          some ((h.quantity * p - h.quantity * h.purchasePrice) /
            (h.quantity * h.purchasePrice) * 100))) := by
  subst hh
  subst hcp
  refine ⟨?_, ?_, ?_, ?_⟩
  · unfold getHoldingsWithMetrics
    rw [List.getElem?_map, List.getElem?_eq_getElem hi]
    rfl
  · cases hc : priceLookup prices holdings[i].symbol <;> simp [computeMetrics, hc]
  · intro hnone
    simp [computeMetrics, hnone]
  · intro p hp
    refine ⟨by simp [computeMetrics, hp], by simp [computeMetrics, hp], ?_, ?_⟩
    · intro h0
      simp [computeMetrics, hp, h0]
    · intro hpos
      simp [computeMetrics, hp, hpos]

/-- Witness for C5 at the claim's concrete input: quantity 10, purchase
price 150, current price 160 give total cost 1500, current value 1600,
absolute return 100 and percentage return 20/3 ≈ 6.666…%. -/
theorem c5_holding_metrics_witness :
    (computeMetrics ⟨1, 1, "AAPL", 10, 150⟩ (some 160)).totalCost = some 1500 ∧
    (computeMetrics ⟨1, 1, "AAPL", 10, 150⟩ (some 160)).currentValue = some 1600 ∧
    (computeMetrics ⟨1, 1, "AAPL", 10, 150⟩ (some 160)).absoluteReturn = some 100 ∧
    (computeMetrics ⟨1, 1, "AAPL", 10, 150⟩ (some 160)).percentageReturn = some (20 / 3) := by
  have h := c5_holding_metrics [⟨1, 1, "AAPL", 10, 150⟩] [("AAPL", some 160)] 0 (by decide)
    ⟨1, 1, "AAPL", 10, 150⟩ rfl (some 160) rfl
  have h4 := h.2.2.2 160 rfl
  refine ⟨?_, ?_, ?_, ?_⟩
  · rw [h.2.1]
    norm_num
  · rw [h4.1]
    norm_num
  · rw [h4.2.1]
    norm_num
  · rw [h4.2.2.2 (by norm_num)]
    norm_num

theorem matchOpt_eq_getD (o : Option ℚ) :
    (match o with | some tc => tc | none => (0 : ℚ)) = o.getD 0 := by
  cases o <;> rfl

/-- C6: `get_portfolio_summary` totals are the sums over all valued
holdings, a null current_value contributing 0 to the current-value sum;
total_absolute_return is their difference; total_percentage_return is
total_absolute_return / total_cost × 100, or 0 when total_cost is 0; a
portfolio with zero holdings yields all-zero totals with null best/worst
performer rather than failing.  (Positivity of each holding's total cost
holds by the data model: quantity and purchase price are strictly
positive.) -/
theorem c6_summary_totals (pid : ℕ) (hs : List HoldingWithMetrics)
    (hpos : ∀ h ∈ hs, 0 < h.totalCost.getD 0) :
    (getPortfolioSummary pid hs).totalCost = (hs.map (fun h => h.totalCost.getD 0)).sum ∧
    (getPortfolioSummary pid hs).totalCurrentValue =
      (hs.map (fun h => h.currentValue.getD 0)).sum ∧
    (getPortfolioSummary pid hs).totalAbsoluteReturn =
      (getPortfolioSummary pid hs).totalCurrentValue -
        (getPortfolioSummary pid hs).totalCost ∧
    ((getPortfolioSummary pid hs).totalCost = 0 →
      (getPortfolioSummary pid hs).totalPercentageReturn = 0) ∧
    ((getPortfolioSummary pid hs).totalCost ≠ 0 →
      (getPortfolioSummary pid hs).totalPercentageReturn =
        (getPortfolioSummary pid hs).totalAbsoluteReturn /
          (getPortfolioSummary pid hs).totalCost * 100) ∧
    (hs = [] → getPortfolioSummary pid hs = ⟨pid, 0, 0, 0, 0, 0, none, none⟩) ∧
    (getPortfolioSummary pid hs).totalHoldings = hs.length := by
  cases hs with
  | nil => simp [getPortfolioSummary]
  | cons h0 rest =>
    have hposS : 0 < ((h0 :: rest).map (fun h => h.totalCost.getD 0)).sum := by
      apply List.sum_pos
      · intro a ha
        obtain ⟨h, hh, hha⟩ := List.mem_map.mp ha
        rw [← hha]
        exact hpos h hh
      · simp
    have e1 : (getPortfolioSummary pid (h0 :: rest)).totalCost =
        ((h0 :: rest).map (fun h => h.totalCost.getD 0)).sum := by
      simp [getPortfolioSummary, foldl_totalCost, matchOpt_eq_getD]
    have e2 : (getPortfolioSummary pid (h0 :: rest)).totalCurrentValue =
        ((h0 :: rest).map (fun h => h.currentValue.getD 0)).sum := by
      simp [getPortfolioSummary, foldl_currentValue, matchOpt_eq_getD]
    have e3 : (getPortfolioSummary pid (h0 :: rest)).totalAbsoluteReturn =
        (getPortfolioSummary pid (h0 :: rest)).totalCurrentValue -
          (getPortfolioSummary pid (h0 :: rest)).totalCost := by
      simp [getPortfolioSummary, foldl_totalCost, foldl_currentValue, matchOpt_eq_getD]
    have hc2 : (0 : ℚ) <
        h0.totalCost.getD 0 + (List.map (fun h => h.totalCost.getD 0) rest).sum := by
      simpa using hposS
    have e4 : (getPortfolioSummary pid (h0 :: rest)).totalPercentageReturn =
        ((List.map (fun h => h.currentValue.getD 0) (h0 :: rest)).sum -
          (List.map (fun h => h.totalCost.getD 0) (h0 :: rest)).sum) /
          (List.map (fun h => h.totalCost.getD 0) (h0 :: rest)).sum * 100 := by
      simp [getPortfolioSummary, foldl_totalCost, foldl_currentValue, hc2, matchOpt_eq_getD]
    refine ⟨e1, e2, e3, ?_, ?_, by simp, by simp [getPortfolioSummary]⟩
    · intro hzero
      rw [e1] at hzero
      exact absurd hzero (ne_of_gt hposS)
    · intro _
      rw [e4, e3, e2, e1]

/-- Witness for C6 at a concrete input: one valued holding with total cost
1500 and current value 1600 gives totals 1500 / 1600 / 100 and percentage
20/3. -/
theorem c6_summary_totals_witness :
    (getPortfolioSummary 1 [⟨1, 1, "AAPL", 10, 150, some 160, some 1600, some 1500,
        some 100, some (20 / 3)⟩]).totalCost = 1500 ∧
    (getPortfolioSummary 1 [⟨1, 1, "AAPL", 10, 150, some 160, some 1600, some 1500,
        some 100, some (20 / 3)⟩]).totalPercentageReturn = 20 / 3 := by
  have h := c6_summary_totals 1
    [⟨1, 1, "AAPL", 10, 150, some 160, some 1600, some 1500, some 100, some (20 / 3)⟩]
    (by intro x hx; rw [List.mem_singleton] at hx; subst hx; norm_num)
  constructor
  · rw [h.1]
    norm_num
  · rw [h.2.2.2.2.1 (by rw [h.1]; norm_num), h.2.2.1, h.2.1, h.1]
    norm_num

/-- C7: the best performer reported by `get_portfolio_summary` is the
symbol of the first holding (in iteration order) attaining the maximum
non-null percentage return — the strictly-greater comparison makes the
first occurrence of the maximum win ties — and the worst performer is the
first holding attaining the minimum; when no holding has a non-null
percentage return both are none. -/
theorem c7_performer_selection (pid : ℕ) (hs : List HoldingWithMetrics) :
    (getPortfolioSummary pid hs).bestPerformer = specBestPerformer hs ∧
    (getPortfolioSummary pid hs).worstPerformer = specWorstPerformer hs ∧
    (prPairs hs = [] →
      (getPortfolioSummary pid hs).bestPerformer = none ∧
      (getPortfolioSummary pid hs).worstPerformer = none) := by
  have hb : (getPortfolioSummary pid hs).bestPerformer = specBestPerformer hs := by
    cases hs with
    | nil => rfl
    | cons h0 rest =>
      have : (getPortfolioSummary pid (h0 :: rest)).bestPerformer =
          (scanPerformers (h0 :: rest)).bestPerformer := by
        simp [getPortfolioSummary]
      rw [this, scanPerformers_eq]
      rfl
  have hw : (getPortfolioSummary pid hs).worstPerformer = specWorstPerformer hs := by
    cases hs with
    | nil => rfl
    | cons h0 rest =>
      have : (getPortfolioSummary pid (h0 :: rest)).worstPerformer =
          (scanPerformers (h0 :: rest)).worstPerformer := by
        simp [getPortfolioSummary]
      rw [this, scanPerformers_eq]
      rfl
  refine ⟨hb, hw, ?_⟩
  intro hemp
  rw [hb, hw]
  unfold specBestPerformer specWorstPerformer
  rw [hemp]
  exact ⟨rfl, rfl⟩

/-- Witness for C7 at concrete inputs: with returns 10, −5, 10 the best
performer is the first of the two tied holdings ("A", not "C") and the
worst is "B"; with no valued holdings both are none. -/
theorem c7_performer_selection_witness :
    (getPortfolioSummary 1
      [⟨1, 1, "A", 1, 1, some 1, some 1, some 1, some 0, some 10⟩,
        ⟨2, 1, "B", 1, 1, some 1, some 1, some 1, some 0, some (-5)⟩,
        ⟨3, 1, "C", 1, 1, some 1, some 1, some 1, some 0, some 10⟩]).bestPerformer =
      some "A" ∧
    (getPortfolioSummary 1
      [⟨1, 1, "A", 1, 1, some 1, some 1, some 1, some 0, some 10⟩,
        ⟨2, 1, "B", 1, 1, some 1, some 1, some 1, some 0, some (-5)⟩,
        ⟨3, 1, "C", 1, 1, some 1, some 1, some 1, some 0, some 10⟩]).worstPerformer =
      some "B" ∧
    (getPortfolioSummary 1 ([] : List HoldingWithMetrics)).bestPerformer = none := by
  have h := c7_performer_selection 1
    [⟨1, 1, "A", 1, 1, some 1, some 1, some 1, some 0, some 10⟩,
      ⟨2, 1, "B", 1, 1, some 1, some 1, some 1, some 0, some (-5)⟩,
      ⟨3, 1, "C", 1, 1, some 1, some 1, some 1, some 0, some 10⟩]
  have he := (c7_performer_selection 1 []).2.2 rfl
  refine ⟨?_, ?_, he.1⟩
  · rw [h.1]
    decide
  · rw [h.2.1]
    decide

end PortfolioTracker
